import Mathlib

/-!
# ProvChain — shallow embedding and verification

This file embeds the core of the ProvChain repository (provenance graph,
content-addressed storage with proof-of-possession verification, and the
resilience layer's circuit breaker) as executable Lean definitions, and
proves or refutes the specification's claims about them.

Conventions of the embedding:

* JavaScript `Map` objects are modelled as association lists with
  `set`-semantics (updating an existing key replaces its value in place,
  a new key is appended); JS `Set` objects as duplicate-free lists with
  append-on-add.  Both reflect the insertion-order iteration of JS maps.
* JS `null`-able fields are `Option`; JS truthiness tests on strings
  (`if (node.cid)`, `!!node.cid`) are modelled by `jsTruthy`, which is
  false exactly on `none` and `some ""` (the two falsy cases a
  string-or-null field can take).
* Timestamps are opaque `String`s (ISO strings) or `Nat` milliseconds
  where the code does arithmetic on `Date.now()`.
* The SHA-256 hex digest used by the source is modelled as an abstract
  parameter `hash : String → String` wherever a definition needs it; the
  theorems proved below are independent of the choice of hash function.
* Exceptions become `Except`/error components; where the source mutates
  `this` before or after a `throw`, the embedding returns the mutated
  state alongside the error.
-/

namespace ProvChain

/-- JS truthiness of a nullable string field: `null` and `""` are falsy. -/
def jsTruthy : Option String → Bool
  | none => false
  | some s => s ≠ ""

/-- Association-list lookup (first binding wins, as for JS `Map.get`). -/
def lookupA {α : Type} (m : List (String × α)) (k : String) : Option α :=
  (m.find? (fun p => p.1 == k)).map (·.2)

/-- JS `Map.set`: replace the value of an existing key in place, otherwise
append a new binding (insertion order is preserved). -/
def setA {α : Type} (m : List (String × α)) (k : String) (v : α) :
    List (String × α) :=
  if m.any (fun p => p.1 == k) then
    m.map (fun p => if p.1 == k then (k, v) else p)
  else
    m ++ [(k, v)]

/-- JS `Set.add`: append the element unless already present. -/
def setAdd (s : List String) (x : String) : List String :=
  if s.contains x then s else s ++ [x]

/-! ## Data model (provchain-core)

`ProvenanceNode` fields, from the `ProvenanceNode` constructor of the
core module.  `metadata` is modelled by its two invariant fields
(`nodeType`, `dataSize`), which are the only metadata fields the graph
code reads. -/

/-- One entry of a node's `verificationHistory`: either a
`storage_linked` record (carries a deal count) or an `integrity_check`
record (carries a verification method). -/
structure VerifEntry where
  timestamp : String
  action : String
  cid : Option String
  verified : Bool
  deals : Option Nat
  verificationMethod : Option String
  deriving Repr, DecidableEq

/-- A simulated Filecoin storage deal record (provider/state). -/
structure Deal where
  dealId : Nat
  miner : String
  state : String
  deriving Repr, DecidableEq

/-- The proof-of-possession record a node stores after linking
(`storageProof`); the node-level code only reads `deals.length`. -/
structure StorageProof where
  deals : List Deal
  dataHash : String
  deriving Repr, DecidableEq

/-- Embeds `ProvenanceNode` of the core module. -/
structure Node where
  id : String
  data : String
  nodeType : String
  dataSize : Nat
  cid : Option String
  storageProof : Option StorageProof
  verificationHistory : List VerifEntry
  createdAt : String
  updatedAt : String
  version : Nat
  tags : List String
  deriving Repr, DecidableEq

/-- Embeds `ProvenanceEdge` of the core module (the float field `weight : 1.0`
is omitted: no claim and no graph operation reads it). -/
structure Edge where
  id : String
  sourceId : String
  targetId : String
  relationshipType : String
  transformationProof : Option String
  createdAt : String
  verified : Bool
  deriving Repr, DecidableEq

/-! ## ProvenanceNode operations -/

/-- Embeds `ProvenanceNode.linkToFilecoin(cid, storageProof)`: unconditionally
sets `cid` and `storageProof`, refreshes `updatedAt` and appends one
`storage_linked` entry to `verificationHistory`.  The source performs no
already-linked check of any kind. -/
def linkToFilecoin (n : Node) (cid : String) (proof : StorageProof)
    (now : String) : Node :=
  { n with
    cid := some cid
    storageProof := some proof
    updatedAt := now
    verificationHistory := n.verificationHistory ++
      [⟨now, "storage_linked", some cid, true, some proof.deals.length, none⟩] }

/-- Errors raised by node/graph operations. -/
inductive CoreErr where
  /-- Raised as `'Node not linked to Filecoin storage'` -/
  | notLinked
  /-- Raised as `'Storage proof verification failed'` -/
  | proofFailed
  /-- Raised as `'Source or target node does not exist'` (the spec's
  `DanglingReference`) -/
  | danglingReference
  deriving Repr, DecidableEq

/-- Embeds `ProvenanceNode.verify(storage)`.  The storage call
`storage.verifyStorageProof(this.cid, this.data)` is abstracted by its
boolean outcome `storageResult`.  Guard: the source throws `NotLinked`
when `!this.cid || !this.storageProof`; otherwise it appends an
`integrity_check` history entry recording the outcome, returns `true` on
success and throws on failure.  Returns the (possibly) mutated node
alongside the result. -/
def nodeVerify (n : Node) (storageResult : Bool) (now : String) :
    Node × Except CoreErr Bool :=
  if !jsTruthy n.cid || n.storageProof.isNone then
    (n, .error .notLinked)
  else
    let n' := { n with verificationHistory := n.verificationHistory ++
      [⟨now, "integrity_check", n.cid, storageResult, none, some "storage_proof"⟩] }
    if storageResult then (n', .ok true) else (n', .error .proofFailed)

/-! ## Resilience layer: circuit breaker

`ErrorHandler.createCircuitBreaker(serviceName, threshold, timeout)`.
The closure state is `{failures, lastFailure, state}`; `lastFailure`
starts as `null`, which JS arithmetic coerces to `0`, so it is a `Nat`
here.  A call is modelled by `cbCall`, parameterised by the current time
`now` (`Date.now()`) and by whether the wrapped operation would succeed
(`opOk`); `invoked` records whether the wrapped operation was actually
run, and the outcome distinguishes the immediate `ResourceError`
rejection from a propagated operation failure. -/

inductive CBState where
  | closed
  | opened
  | halfOpen
  deriving Repr, DecidableEq

structure CBData where
  failures : Nat
  lastFailure : Nat
  state : CBState
  deriving Repr, DecidableEq

inductive CBOutcome where
  /-- the `ResourceError` thrown while the circuit is open -/
  | rejected
  /-- the wrapped operation ran and succeeded -/
  | success
  /-- the wrapped operation ran, failed, and its error was rethrown -/
  | failure
  deriving Repr, DecidableEq

structure CBResult where
  cb : CBData
  invoked : Bool
  outcome : CBOutcome
  deriving Repr, DecidableEq

/-- One call through the circuit breaker closure. -/
def cbCall (threshold timeout : Nat) (cb : CBData) (now : Nat)
    (opOk : Bool) : CBResult :=
  if cb.state = .opened ∧ now - cb.lastFailure < timeout then
    ⟨cb, false, .rejected⟩
  else
    let cb1 := if cb.state = .opened then { cb with state := .halfOpen } else cb
    if opOk then
      let cb2 := if cb1.state = .halfOpen then
        { cb1 with state := .closed, failures := 0 } else cb1
      ⟨cb2, true, .success⟩
    else
      let f := cb1.failures + 1
      let cb2 : CBData := { cb1 with failures := f, lastFailure := now }
      let cb3 := if threshold ≤ f then { cb2 with state := .opened } else cb2
      ⟨cb3, true, .failure⟩

/-- Folding a sequence of timed calls `(now, opOk)` through the breaker. -/
def cbRun (threshold timeout : Nat) (cb : CBData)
    (evs : List (Nat × Bool)) : CBData :=
  evs.foldl (fun c e => (cbCall threshold timeout c e.1 e.2).cb) cb

/-- The breaker's inductive invariant: whenever the recorded state is
`OPEN` (or the transient `HALF_OPEN`), at least `threshold` failures have
accumulated since the last reset. -/
def CBInv (threshold : Nat) (cb : CBData) : Prop :=
  cb.state ≠ .closed → threshold ≤ cb.failures

/-! ## ProvChainGraph

State and operations of the `ProvChainGraph` class of the core module:
the `nodes`/`edges` maps (keyed by the entity's own `id`, so they are
plain lists looked up through the `id` field), the four secondary
indices, and the derived `metrics`. -/

structure Metrics where
  totalNodes : Nat
  totalEdges : Nat
  verifiedNodes : Nat
  totalStorage : Nat
  deriving Repr, DecidableEq

structure Graph where
  nodes : List Node
  edges : List Edge
  byCid : List (String × String)
  byType : List (String × List String)
  byTags : List (String × List String)
  byTimestamp : List (String × List String)
  metrics : Metrics
  deriving Repr, DecidableEq

def emptyGraph : Graph :=
  ⟨[], [], [], [], [], [], ⟨0, 0, 0, 0⟩⟩

/-- Source: `this.nodes.get(nodeId)` (the map is keyed by `node.id`). -/
def findNode (g : Graph) (nodeId : String) : Option Node :=
  g.nodes.find? (fun n => n.id == nodeId)

/-- Source: `this.nodes.has(id)`. -/
def hasNodeId (g : Graph) (nodeId : String) : Bool :=
  g.nodes.any (fun n => n.id == nodeId)

/-- Source: `nodes.set(node.id, node)`: replace the node with the same id in
place, otherwise append. -/
def setNode (ns : List Node) (n : Node) : List Node :=
  if ns.any (fun m => m.id == n.id) then
    ns.map (fun m => if m.id == n.id then n else m)
  else
    ns ++ [n]

/-- Source: `edges.set(edge.id, edge)`. -/
def setEdge (es : List Edge) (e : Edge) : List Edge :=
  if es.any (fun d => d.id == e.id) then
    es.map (fun d => if d.id == e.id then e else d)
  else
    es ++ [e]

/-- Source: `updateMetrics()`: recompute the aggregate metrics from the maps. -/
def updateMetrics (g : Graph) : Graph :=
  { g with metrics :=
      ⟨g.nodes.length, g.edges.length,
       (g.nodes.filter (fun n => jsTruthy n.cid)).length,
       (g.nodes.map (·.dataSize)).sum⟩ }

/-- Source: `node.createdAt.split('T')[0]` — the day bucket of the timestamp
index. -/
def dateKey (createdAt : String) : String :=
  createdAt.takeWhile (fun c => c ≠ 'T')

/-- Add `nodeId` to the id-set stored under `key` in a 1:N index
(creating the set first when absent), as the source does with
`Map`-of-`Set`. -/
def indexAdd (idx : List (String × List String)) (key nodeId : String) :
    List (String × List String) :=
  match lookupA idx key with
  | some s => setA idx key (setAdd s nodeId)
  | none => setA idx key (setAdd [] nodeId)

/-- The by-CID index update performed by `addNode`:
`if (node.cid) this.indices.byCid.set(node.cid, node.id)` (note the JS
truthiness test, which skips an empty-string cid). -/
def cidStep (idx : List (String × String)) (n : Node) :
    List (String × String) :=
  match n.cid with
  | some c => if c = "" then idx else setA idx c n.id
  | none => idx

/-- The by-type index update of `addNode`
(`node.metadata.nodeType || 'unknown'`). -/
def typeStep (idx : List (String × List String)) (n : Node) :
    List (String × List String) :=
  indexAdd idx (if n.nodeType = "" then "unknown" else n.nodeType) n.id

/-- The by-tag index update of `addNode`. -/
def tagStep (idx : List (String × List String)) (n : Node) :
    List (String × List String) :=
  n.tags.foldl (fun a t => indexAdd a t n.id) idx

/-- The by-creation-day index update of `addNode`. -/
def tsStep (idx : List (String × List String)) (n : Node) :
    List (String × List String) :=
  indexAdd idx (dateKey n.createdAt) n.id

/-- Embeds `ProvChainGraph.addNode(node)`: insert into `nodes`, recompute the
metrics, update all four indices, return the node id.  The source
performs no duplicate-cid (or any other) rejection — the only throw is
the `instanceof` check, which the types make vacuous here. -/
def addNode (g : Graph) (n : Node) : Graph × String :=
  let g1 := updateMetrics { g with nodes := setNode g.nodes n }
  ({ g1 with
      byCid := cidStep g1.byCid n
      byType := typeStep g1.byType n
      byTags := tagStep g1.byTags n
      byTimestamp := tsStep g1.byTimestamp n },
   n.id)

/-- Embeds `ProvChainGraph.addEdge(edge)`: throws
`'Source or target node does not exist'` (the spec's `DanglingReference`)
before any mutation when either endpoint is missing from `nodes`;
otherwise inserts the edge, recomputes the metrics and returns the edge
id.  The graph value is returned alongside the outcome so that
"leaves the graph unchanged" is expressible. -/
def addEdge (g : Graph) (e : Edge) : Graph × Except CoreErr String :=
  if !(hasNodeId g e.sourceId && hasNodeId g e.targetId) then
    (g, .error .danglingReference)
  else
    (updateMetrics { g with edges := setEdge g.edges e }, .ok e.id)

/-- Embeds `getNeighbors(nodeId, 'incoming')`, projected to the edges: the
linear scan over `edges` keeping those with `edge.targetId === nodeId`
(in insertion order). -/
def incomingEdges (g : Graph) (nodeId : String) : List Edge :=
  g.edges.filter (fun e => e.targetId == nodeId)

/-! ## Provenance traversal

`getProvenance(nodeId, maxDepth = 10)`: depth-first walk backward along
incoming edges, with one `visited` set and one `provenance` accumulator
shared by the whole traversal.  A path entry is
`{node, edge, depth}`. -/

structure Step where
  node : Node
  edge : Option Edge
  depth : Nat
  deriving Repr, DecidableEq

structure TravState where
  visited : List String
  provenance : List (List Step)
  deriving Repr, DecidableEq

/-- The inner `traverse(currentNodeId, path, depth)` closure.  The
source recurses on `neighbor.node.id` where
`neighbor.node = nodes.get(edge.sourceId)`; since the node map is keyed
by the nodes' own ids this equals `edge.sourceId` whenever the lookup
succeeds (on a dangling edge the source would throw a `TypeError`
instead of recursing; the graph never holds a dangling edge).  The
`fuel` argument only drives termination: the top-level call passes
`maxDepth + 1`, the invariant `depth + fuel = maxDepth + 1` holds at
every recursive call, and at `fuel = 0` the guard `depth > maxDepth`
would return `st` unchanged exactly as the first match arm does. -/
def traverse (g : Graph) (maxDepth : Nat) :
    Nat → String → List Step → Nat → TravState → TravState
  | 0, _, _, _, st => st
  | fuel + 1, c, path, depth, st =>
    if st.visited.contains c || maxDepth < depth then st
    else
      let st1 : TravState := { st with visited := st.visited ++ [c] }
      match findNode g c with
      | none => st1
      | some node =>
        let inc := incomingEdges g c
        if inc.isEmpty then
          { st1 with provenance :=
              st1.provenance ++ [path ++ [⟨node, none, depth⟩]] }
        else
          inc.foldl
            (fun s e =>
              traverse g maxDepth fuel e.sourceId
                (path ++ [⟨node, some e, depth⟩]) (depth + 1) s)
            st1

/-- Embeds `ProvChainGraph.getProvenance(nodeId, maxDepth = 10)`. -/
def getProvenance (g : Graph) (nodeId : String) (maxDepth : Nat) :
    List (List Step) :=
  (traverse g maxDepth (maxDepth + 1) nodeId [] 0 ⟨[], []⟩).provenance

/-- The ids of the nodes along one provenance path. -/
def pathIds (p : List Step) : List String :=
  p.map (fun s => s.node.id)

/-! ## Query engine

`ProvChainGraph.query(query)`: one primary selector (cid / nodeType /
tags / dateRange, tried in that order, JS-truthiness guards included),
then the secondary `verified` filter (`!!node.cid === verified`), a sort
by `createdAt`/`updatedAt` and offset/limit pagination, and finally the
projection adding `verified: !!node.cid` to each row.

The source's sort comparator (`bVal > aVal ? 1 : -1`, never `0`) is
inconsistent on equal keys, so V8 leaves the relative order of
equal-keyed nodes unspecified; the insertion sort below fixes one
resolution of those ties.  Every property proved about `query` is
insensitive to the order of equal-keyed rows.  ISO-8601 date strings
compare under `String` order exactly as the `Date` values the source
compares. -/

def getNodeByCid (g : Graph) (cid : String) : Option Node :=
  match lookupA g.byCid cid with
  | some nid => if nid ≠ "" then findNode g nid else none
  | none => none

/-- Embeds `getNodesByType` / `getNodesByTag`: map the indexed id-set back to
nodes.  (The source maps through `nodes.get` without a null filter; an
id in an index always resolves because nodes are never removed, which
`Option.filterMap` reflects.) -/
def nodesOfIds (g : Graph) (ids : List String) : List Node :=
  ids.filterMap (findNode g)

def getNodesByType (g : Graph) (t : String) : List Node :=
  nodesOfIds g ((lookupA g.byType t).getD [])

def getNodesByTag (g : Graph) (t : String) : List Node :=
  nodesOfIds g ((lookupA g.byTags t).getD [])

structure DateRange where
  start : String
  stop : String
  deriving Repr, DecidableEq

/-- Embeds `getNodesByDateRange(startDate, endDate)`: scan the day buckets in
insertion order, keeping buckets with `startDate ≤ key ≤ endDate`. -/
def getNodesByDateRange (g : Graph) (r : DateRange) : List Node :=
  g.byTimestamp.foldl
    (fun acc kv =>
      if r.start ≤ kv.1 ∧ kv.1 ≤ r.stop then acc ++ nodesOfIds g kv.2
      else acc)
    []

inductive SortKey where
  | createdAt
  | updatedAt
  deriving Repr, DecidableEq

inductive SortOrder where
  | asc
  | desc
  deriving Repr, DecidableEq

structure QueryFilter where
  cid : Option String := none
  nodeType : Option String := none
  tags : Option (List String) := none
  dateRange : Option DateRange := none
  verified : Option Bool := none
  limit : Nat := 10
  offset : Nat := 0
  sortBy : SortKey := .createdAt
  sortOrder : SortOrder := .desc
  deriving Repr, DecidableEq

/-- The sort key the comparator reads (`a[sortBy]`). -/
def sortVal (k : SortKey) (n : Node) : String :=
  match k with
  | .createdAt => n.createdAt
  | .updatedAt => n.updatedAt

/-- Holds when `a` may stay before `b` under the source's comparator
(comparator value ≤ 0). -/
def sortLe (f : QueryFilter) (a b : Node) : Bool :=
  match f.sortOrder with
  | .asc => sortVal f.sortBy a ≤ sortVal f.sortBy b
  | .desc => sortVal f.sortBy b ≤ sortVal f.sortBy a

def insertSorted (le : Node → Node → Bool) (x : Node) :
    List Node → List Node
  | [] => [x]
  | y :: ys => if le x y then x :: y :: ys else y :: insertSorted le x ys

def sortNodes (le : Node → Node → Bool) (l : List Node) : List Node :=
  l.foldr (insertSorted le) []

/-- The union-by-tags primary selector: a JS `Set` of node objects,
deduplicating (by identity, i.e. by id — the map holds one object per
id) while preserving first-insertion order. -/
def tagsUnion (g : Graph) (ts : List String) : List Node :=
  ts.foldl
    (fun acc t =>
      acc ++ (getNodesByTag g t).filter
        (fun n => !acc.any (fun m => m.id == n.id)))
    []

/-- The primary selection of `query` (the `if (cid) … else if …`
chain). -/
def queryPrimary (g : Graph) (f : QueryFilter) : List Node :=
  if jsTruthy f.cid then
    match getNodeByCid g (f.cid.getD "") with
    | some n => [n]
    | none => []
  else if jsTruthy f.nodeType then
    getNodesByType g (f.nodeType.getD "")
  else if (f.tags.getD []).length > 0 then
    tagsUnion g (f.tags.getD [])
  else
    match f.dateRange with
    | some r => getNodesByDateRange g r
    | none => g.nodes

/-- A row of the query result: the node's serialisation plus the
computed `verified: !!node.cid` field. -/
structure QueryRow where
  node : Node
  verified : Bool
  deriving Repr, DecidableEq

/-- Embeds `ProvChainGraph.query(query)`. -/
def query (g : Graph) (f : QueryFilter) : List QueryRow :=
  let results := queryPrimary g f
  let results := match f.verified with
    | some b => results.filter (fun n => jsTruthy n.cid == b)
    | none => results
  let sorted := sortNodes (sortLe f) results
  ((sorted.drop f.offset).take f.limit).map
    (fun n => ⟨n, jsTruthy n.cid⟩)

/-! ## Export / import

`exportGraph()` serialises every node and edge with `toJSON` (all fields
preserved); `importGraph(snapshot)` clears the maps and indices and
replays `addNode`/`addEdge`.  The source reconstructs each entity with
its constructor and then `Object.assign`s the snapshot record over it,
so the imported entity equals the exported one field for field. -/

structure Snapshot where
  nodes : List Node
  edges : List Edge
  deriving Repr, DecidableEq

def exportGraph (g : Graph) : Snapshot :=
  ⟨g.nodes, g.edges⟩

/-- The edge-replay loop of `importGraph`; `addEdge` throws out of the
loop on a dangling edge, leaving the partially imported graph behind. -/
def importEdges : Graph → List Edge → Graph × Option CoreErr
  | g, [] => (g, none)
  | g, e :: es =>
    match addEdge g e with
    | (g', .ok _) => importEdges g' es
    | (g', .error err) => (g', some err)

/-- Embeds `ProvChainGraph.importGraph(graphData)`. -/
def importGraph (snap : Snapshot) : Graph × Option CoreErr :=
  importEdges
    (snap.nodes.foldl (fun g n => (addNode g n).1) emptyGraph)
    snap.edges

/-- Composes `importGraph(exportGraph())` — the round trip of the claim. -/
def roundTrip (g : Graph) : Graph × Option CoreErr :=
  importGraph (exportGraph g)

/-- The state the aliasing of the source produces when
`node.linkToStorage` is called on a node that is already in the graph:
the object stored in `nodes` is mutated in place, and `linkToFilecoin`
touches no graph index. -/
def relinkNode (g : Graph) (nodeId cid : String) (proof : StorageProof)
    (now : String) : Graph :=
  { g with nodes :=
      g.nodes.map fun n =>
        if n.id == nodeId then linkToFilecoin n cid proof now else n }

/-! ## Content-addressed storage: proof verification

Two verification routines exist in the repository.

`FilecoinStorage.verifyPDPProof(cid, data)` (filecoin-storage.js):
throws `'No PDP proof found for CID'` when no proof is recorded;
otherwise it computes a hash of `data + cid + date` into a local that is
never read again, and returns `storedProof.proof &&
storedProof.proof.length > 0` — the recorded proof's truthiness, with no
comparison against the payload.

`FilecoinStorage.verifyStorageProof(cid, data)` (the extended storage
module): returns `false` when no deal record exists for the cid; answers
from a one-hour verification cache keyed by `(cid, contentHash(data))`;
then compares `expectedHash = contentHash(data)` with `actualHash =
contentHash(data)` — two computations of the same value, so the mismatch
branch is unreachable — and finally requires a majority of the recorded
deals to be in an `'Active'`/`'Storing'` state.  The hex digest is the
abstract parameter `hash`. -/

/-- The stored PDP proof record of filecoin-storage.js. -/
structure PDPProof where
  algorithm : String
  proof : String
  generatedAt : String
  cid : String
  deriving Repr, DecidableEq

inductive StoreErr where
  /-- Raised as `'No PDP proof found for CID'` (the spec's `ProofNotFound`) -/
  | proofNotFound
  deriving Repr, DecidableEq

/-- Embeds `FilecoinStorage.verifyPDPProof(cid, data)` of filecoin-storage.js.
The `data` argument is received but, apart from a dead local hash
computation, never influences the result. -/
def verifyPDPProof (pdpProofs : List (String × PDPProof)) (cid : String)
    (data : String) : Except StoreErr Bool :=
  match lookupA pdpProofs cid with
  | none => .error .proofNotFound
  | some storedProof => .ok (storedProof.proof.length > 0)

/-- The deal record tracked in `storageDeals`. -/
structure DealInfo where
  deals : List Deal
  deriving Repr, DecidableEq

/-- A `verificationCache` entry. -/
structure VCacheEntry where
  valid : Bool
  timestamp : Nat
  deriving Repr, DecidableEq

/-- The extended storage module's verification state. -/
structure FilState where
  storageDeals : List (String × DealInfo)
  verificationCache : List (String × VCacheEntry)
  deriving Repr, DecidableEq

/-- Embeds `verifyDeals(deals)`: count the deals whose state is `'Active'` or
`'Storing'` and require at least `Math.ceil(deals.length / 2)`. -/
def verifyDeals (deals : List Deal) : Bool :=
  let activeDeals :=
    deals.countP (fun d => d.state = "Active" ∨ d.state = "Storing")
  let requiredActive := (deals.length + 1) / 2
  requiredActive ≤ activeDeals

/-- Embeds `FilecoinStorage.verifyStorageProof(cid, data)` of the extended
storage module, with the content hash abstracted as `hash` and
`Date.now()` as `now`. -/
def verifyStorageProof (hash : String → String) (st : FilState)
    (now : Nat) (cid data : String) : FilState × Bool :=
  match lookupA st.storageDeals cid with
  | none => (st, false)
  | some dealInfo =>
    let cacheKey := cid ++ "-" ++ hash data
    let fresh : Option Bool :=
      match lookupA st.verificationCache cacheKey with
      | some c => if now - c.timestamp < 3600000 then some c.valid else none
      | none => none
    match fresh with
    | some v => (st, v)
    | none =>
      let expectedHash := hash data
      let actualHash := hash data
      if expectedHash ≠ actualHash then (st, false)
      else
        let isValid := verifyDeals dealInfo.deals
        let cache' := setA st.verificationCache cacheKey ⟨isValid, now⟩
        ({ st with verificationCache := cache' }, isValid)

/-! ## Auxiliary state transformers and canonical index builders -/

/-- Replace a node's `verificationHistory` by an arbitrary
per-node-id choice, leaving every other field untouched. -/
def histSet (hist : String → List VerifEntry) (n : Node) : Node :=
  { n with verificationHistory := hist n.id }

/-- Replace every node's `verificationHistory` (by an arbitrary
per-node-id choice), leaving every other node field, the edges and all
indices untouched.  Used to state that the query engine never reads the
verification history. -/
def remapHist (g : Graph) (hist : String → List VerifEntry) : Graph :=
  { g with nodes := g.nodes.map (histSet hist) }

/-- The by-CID index recomputed from scratch from a node list — exactly
what replaying `addNode` over the list builds. -/
def buildCidIndex (ns : List Node) : List (String × String) :=
  ns.foldl cidStep []

/-- The by-tag index recomputed from scratch from a node list. -/
def buildTagIndex (ns : List Node) : List (String × List String) :=
  ns.foldl tagStep []

/-- Membership of a node id in the id-set a 1:N index stores under a
key — the extensional reading of the by-tag index. -/
def tagHas (idx : List (String × List String)) (t i : String) : Bool :=
  match lookupA idx t with
  | some s => s.contains i
  | none => false

/-! ## Concrete instances used by witnesses and counterexamples -/

/-- A storage proof with one `Active` deal, as `simulateStorage`
produces. -/
def proofEx : StorageProof := ⟨[⟨1, "t017840", "Active"⟩], "h1"⟩

/-- A freshly created, unlinked node (`create` leaves `cid` and
`storageProof` null and the history empty). -/
def nFresh : Node := ⟨"a", "raw", "dataset", 3, none, none, [], "t0", "t0", 1, []⟩

/-- A node whose `cid` is set but whose `storageProof` is null — the
state `linkToFilecoin(cid, null)` leaves behind (the fields are assigned
before the history push throws a `TypeError`), and a state `importGraph`
can restore directly. -/
def nCidNoProof : Node :=
  ⟨"b", "d", "test", 1, some "bafk2bzaced1234567890", none, [], "t0", "t0", 1, []⟩

/-- First node carrying cid `"c1"`. -/
def nDupA : Node := ⟨"a", "d1", "dataset", 2, some "c1", some proofEx, [], "t0", "t0", 1, []⟩

/-- Second node carrying the same cid `"c1"`. -/
def nDupB : Node := ⟨"b", "d2", "model", 2, some "c1", some proofEx, [], "t0", "t0", 1, []⟩

/-- A graph holding `nDupA`, whose by-CID index maps `"c1"` to `"a"`. -/
def gDup : Graph := (addNode emptyGraph nDupA).1

/-- A graph holding only the unlinked node `nFresh`. -/
def gSingle : Graph := (addNode emptyGraph nFresh).1

/-- An edge whose target `"zz"` is not in `gSingle`. -/
def eDangling : Edge := ⟨"e1", "a", "zz", "x", none, "t1", false⟩

/-- Nodes and edges of the spec's A→B→C scenario. -/
def nB : Node := ⟨"b", "cleaned", "processed", 7, none, none, [], "t1", "t1", 1, []⟩

def nC : Node := ⟨"c", "model", "model", 5, none, none, [], "t2", "t2", 1, []⟩

def eAB : Edge := ⟨"eab", "a", "b", "clean", none, "t1", false⟩

def eBC : Edge := ⟨"ebc", "b", "c", "train", none, "t2", false⟩

/-- The chain graph A→B→C, built through the graph API. -/
def gChain : Graph :=
  let g := (addNode emptyGraph nFresh).1
  let g := (addNode g nB).1
  let g := (addNode g nC).1
  let g := (addEdge g eAB).1
  (addEdge g eBC).1

/-- The single provenance path of `gChain` from `"c"`. -/
def pChain : List Step :=
  [⟨nC, some eBC, 0⟩, ⟨nB, some eAB, 1⟩, ⟨nFresh, none, 2⟩]

/-- The graph state after `addNode(nFresh)` followed by
`nFresh.linkToFilecoin("c9", proofEx)` — linking after insertion, which
mutates the stored node but no index. -/
def gRelink : Graph := relinkNode gSingle "a" "c9" proofEx "t1"

/-- The recorded PDP proof map after storing the payload
`"hello-demo"` under `"cid1"` (filecoin-storage.js keeps the digest
string in `proof`). -/
def pdpC1 : List (String × PDPProof) :=
  [("cid1", ⟨"simple_hash", "abc123", "2024-01-01T00:00:00Z", "cid1"⟩)]

/-- The extended storage module's state after storing `"hello-demo"`
under `"cid1"` with one `Active` deal. -/
def filC1 : FilState := ⟨[("cid1", ⟨[⟨1, "t017840", "Active"⟩]⟩)], []⟩

/-- A linked node whose latest `integrity_check` entry records a failed
verification. -/
def nQ : Node :=
  ⟨"q1", "d", "test", 1, some "bafkq", some proofEx,
   [⟨"t1", "integrity_check", some "bafkq", false, none, some "storage_proof"⟩],
   "t0", "t0", 1, []⟩

/-- A graph holding only `nQ`. -/
def gQ : Graph := (addNode emptyGraph nQ).1

/-! # Helper lemmas -/

/-- Looking up the key just written by `setA` returns the new value. -/
theorem lookupA_setA_self {α : Type} (m : List (String × α)) (k : String)
    (v : α) : lookupA (setA m k v) k = some v := by
  rw [setA]
  by_cases h : m.any (fun p => p.1 == k) = true
  · simp only [h, if_true]
    induction m with
    | nil => simp at h
    | cons p ps ih =>
      by_cases hp : (p.1 == k) = true
      · simp [lookupA, List.find?, hp]
      · rw [Bool.not_eq_true] at hp
        simp only [List.any_cons, hp, Bool.false_or] at h
        simpa [lookupA, List.find?, hp] using ih h
  · simp only [h, if_false]
    rw [Bool.not_eq_true, List.any_eq_false] at h
    induction m with
    | nil => simp [lookupA, List.find?]
    | cons p ps ih =>
      have hp := h p (List.mem_cons_self p ps)
      simp only [lookupA, List.cons_append, List.find?, hp]
      exact ih fun q hq => h q (List.mem_cons_of_mem p hq)

/-- Writing through `setA` keeps the key list duplicate-free. -/
theorem setA_keys_nodup {α : Type} (m : List (String × α)) (k : String)
    (v : α) (h : (m.map (·.1)).Nodup) : ((setA m k v).map (·.1)).Nodup := by
  rw [setA]
  by_cases hm : m.any (fun p => p.1 == k) = true
  · simp only [hm, if_true]
    have : ((m.map (fun p => if p.1 == k then (k, v) else p)).map (·.1))
        = m.map (·.1) := by
      rw [List.map_map]
      apply List.map_congr_left
      intro p _
      by_cases hp : (p.1 == k) = true
      · simp only [Function.comp, hp, if_true]
        exact (eq_of_beq hp).symm
      · rw [Bool.not_eq_true] at hp
        simp [Function.comp, hp]
    rw [this]
    exact h
  · rw [Bool.not_eq_true] at hm
    simp only [hm, Bool.false_eq_true, if_false, List.map_append]
    rw [List.any_eq_false] at hm
    rw [List.nodup_append]
    refine ⟨h, List.nodup_singleton k, ?_⟩
    intro a ha
    simp only [List.map_cons, List.map_nil, List.mem_singleton]
    intro hak
    rcases List.mem_map.1 ha with ⟨p, hp, hpa⟩
    have := hm p hp
    rw [hak] at hpa
    rw [hpa] at this
    simp at this

/-! # Theorems

One theorem per claim of the specification, with counterexamples and
witnesses where the claim's status requires them. -/

/-! ## C1 — storage-proof verification vs. payload tampering -/

/-- C1: the specification claims `verifyProof(cid, payload)` recomputes
the payload's content hash, compares it with the proof's recorded hash
and returns `true` only on a match, so that a payload altered by one
byte fails verification.  The code contradicts this: with the proof
recorded for `"hello-demo"` under `"cid1"`, both verification routines
accept every payload — `verifyPDPProof` only tests that the recorded
proof string is nonempty, and `verifyStorageProof` compares the
recomputed hash against a second recomputation of the same hash (its
mismatch branch is unreachable) and then only checks the deal quorum.
The statement quantifies over the payload and the hash function, so in
particular the tampered payload `"hello-demX"` verifies as `true`. -/
theorem c1_verification_ignores_payload :
    ∀ (hash : String → String) (payload : String),
      verifyPDPProof pdpC1 "cid1" payload = .ok true ∧
      (verifyStorageProof hash filC1 0 "cid1" payload).2 = true := by
  intro hash payload
  constructor
  · rfl
  · simp [verifyStorageProof, filC1, lookupA, verifyDeals]

/-! ## C3 — addEdge endpoint check -/

/-- C3: `addEdge` succeeds only when both endpoints are present in
`nodes`, and when either endpoint is missing it fails with the
dangling-reference error and returns the graph completely unchanged
(nodes, edges and indices included). -/
theorem c3_addEdge_endpoints (g : Graph) (e : Edge) :
    ((hasNodeId g e.sourceId && hasNodeId g e.targetId) = false →
      addEdge g e = (g, .error .danglingReference)) ∧
    (∀ s, (addEdge g e).2 = .ok s →
      hasNodeId g e.sourceId = true ∧ hasNodeId g e.targetId = true) := by
  constructor
  · intro h
    simp [addEdge, h]
  · intro s h
    cases hc : (hasNodeId g e.sourceId && hasNodeId g e.targetId) with
    | true =>
      rw [Bool.and_eq_true] at hc
      exact hc
    | false => simp [addEdge, hc] at h

/-- C3 witness: in the one-node graph `gSingle`, the edge `eDangling`
(to the missing node `"zz"`) is rejected with the graph unchanged, while
`eAB` in `gChain`'s node set succeeds with both endpoints present. -/
theorem c3_addEdge_endpoints_witness :
    ((hasNodeId gSingle eDangling.sourceId && hasNodeId gSingle eDangling.targetId)
        = false ∧
      addEdge gSingle eDangling = (gSingle, .error .danglingReference)) ∧
    ((addEdge gChain eAB).2 = .ok "eab" ∧
      hasNodeId gChain eAB.sourceId = true ∧ hasNodeId gChain eAB.targetId = true) :=
  ⟨⟨by decide, (c3_addEdge_endpoints gSingle eDangling).1 (by decide)⟩,
   ⟨by rfl, (c3_addEdge_endpoints gChain eAB).2 "eab" (by rfl)⟩⟩

/-! ## C5 — linkToStorage is not idempotent -/

/-- C5 counterexample: the claim says a second `linkToFilecoin` with the
same CID leaves `verificationHistory` at the single entry of the first
call.  On the fresh node `nFresh`, the first call produces one entry and
the second call with the identical CID and proof produces a second
`storage_linked` entry. -/
theorem c5_relink_grows_history :
    (linkToFilecoin nFresh "c1" proofEx "t1").verificationHistory.length = 1 ∧
    (linkToFilecoin (linkToFilecoin nFresh "c1" proofEx "t1") "c1" proofEx "t2"
      ).verificationHistory.length = 2 := by
  constructor <;> rfl

/-- C5 amended: `linkToFilecoin` performs no already-linked or same-CID
check of any kind — every call (same CID or not) succeeds, appends
exactly one `storage_linked` history entry, and two calls with the same
CID leave two such entries. -/
theorem c5_linkToFilecoin_appends (n : Node) (cid : String)
    (proof : StorageProof) (t1 t2 : String) :
    (linkToFilecoin n cid proof t1).verificationHistory =
      n.verificationHistory ++
        [⟨t1, "storage_linked", some cid, true, some proof.deals.length, none⟩] ∧
    (linkToFilecoin (linkToFilecoin n cid proof t1) cid proof t2
      ).verificationHistory.length = n.verificationHistory.length + 2 := by
  constructor
  · rfl
  · simp [linkToFilecoin]

/-! ## C6 — duplicate CID insertion is not rejected -/

/-- C6 counterexample: the claim says inserting a node whose cid is
already in the by-CID index is an error and the insertion is rejected.
With `nDupA` (cid `"c1"`) already in `gDup`, `addNode` accepts `nDupB`
with the same cid: both nodes end up in the node map and the index entry
for `"c1"` is overwritten to point at `"b"`. -/
theorem c6_duplicate_cid_not_rejected :
    ((addNode gDup nDupB).1.nodes = [nDupA, nDupB]) ∧
    lookupA gDup.byCid "c1" = some "a" ∧
    lookupA (addNode gDup nDupB).1.byCid "c1" = some "b" := by
  refine ⟨?_, ?_, ?_⟩ <;> rfl

/-- C6 amended: the by-CID index does remain a map (each CID holds at
most one node id: updating preserves key uniqueness), but a duplicate
non-empty cid is never rejected — `addNode` always inserts the node and
silently overwrites the index entry so that the CID maps to the most
recently added node. -/
theorem c6_addNode_cid_overwrites (g : Graph) (n : Node) (c : String)
    (hc : n.cid = some c) (hne : c ≠ "") :
    (addNode g n).1.nodes = setNode g.nodes n ∧
    lookupA (addNode g n).1.byCid c = some n.id ∧
    ((g.byCid.map (·.1)).Nodup → (((addNode g n).1.byCid).map (·.1)).Nodup) := by
  refine ⟨rfl, ?_, ?_⟩
  · show lookupA (cidStep g.byCid n) c = some n.id
    rw [cidStep, hc]
    simp only [hne, if_false]
    exact lookupA_setA_self g.byCid c n.id
  · intro h
    show ((cidStep g.byCid n).map (·.1)).Nodup
    rw [cidStep, hc]
    simp only [hne, if_false]
    exact setA_keys_nodup g.byCid c n.id h

/-- C6 witness: the amended statement at the concrete duplicate
insertion of `nDupB` into `gDup`. -/
theorem c6_addNode_cid_overwrites_witness :
    (nDupB.cid = some "c1" ∧ "c1" ≠ "") ∧
    lookupA (addNode gDup nDupB).1.byCid "c1" = some nDupB.id :=
  ⟨⟨by decide, by decide⟩,
   (c6_addNode_cid_overwrites gDup nDupB "c1" (by decide) (by decide)).2.1⟩

/-! ## C7 — NotLinked is not decided by cid alone -/

/-- C7 counterexample: the claim says `verify` raises `NotLinked` iff
`cid` is null, and never when `cid` is non-null.  The node `nCidNoProof`
has a non-null cid but a null `storageProof`; `verify` still raises
`NotLinked` on it, because the source's guard is
`!this.cid || !this.storageProof`. -/
theorem c7_notLinked_despite_cid :
    (nodeVerify nCidNoProof true "t1").2 = .error .notLinked ∧
    nCidNoProof.cid ≠ none := by
  constructor
  · rfl
  · intro h
    simp [nCidNoProof] at h

/-- C7 amended: `verify` fails with `NotLinked` iff the node's `cid` is
falsy (null or the empty string) or its `storageProof` is null; when
both are present the operation never raises `NotLinked` (it proceeds to
the storage check). -/
theorem c7_notLinked_iff (n : Node) (storageResult : Bool) (now : String) :
    (nodeVerify n storageResult now).2 = .error .notLinked ↔
      (jsTruthy n.cid = false ∨ n.storageProof = none) := by
  rw [nodeVerify]
  cases hcid : jsTruthy n.cid with
  | false => simp [hcid]
  | true =>
    cases hsp : n.storageProof with
    | none => simp [hcid, hsp]
    | some p => cases storageResult <;> simp [hcid, hsp]

/-! ## C4 — circuit breaker state machine -/

/-- C4: the circuit breaker is the claimed three-state machine.  In
Closed state every call invokes the operation (never the immediate
rejection); a failure that brings the failure count to the threshold
transitions to Open; while Open and within the timeout window a call is
rejected immediately with the `ResourceError`, without invoking the
operation and without changing the state; once the timeout has elapsed
the next call runs as the Half-Open trial — on success the state becomes
Closed with the failure count reset to zero, on failure the circuit
reopens.  The final conjunct shows the invariant (`Open` implies at
least `threshold` accumulated failures) that makes the reopen
hypothesis hold on every reachable state. -/
theorem c4_circuit_breaker (t tmo : Nat) (cb : CBData) (now : Nat) (ok : Bool) :
    (cb.state = .closed →
      (cbCall t tmo cb now ok).invoked = true ∧
      (cbCall t tmo cb now ok).outcome ≠ .rejected) ∧
    (cb.state = .closed → ok = false → t ≤ cb.failures + 1 →
      (cbCall t tmo cb now ok).cb.state = .opened) ∧
    (cb.state = .opened → now - cb.lastFailure < tmo →
      cbCall t tmo cb now ok = ⟨cb, false, .rejected⟩) ∧
    (cb.state = .opened → tmo ≤ now - cb.lastFailure → ok = true →
      (cbCall t tmo cb now ok).cb = ⟨0, cb.lastFailure, .closed⟩ ∧
      (cbCall t tmo cb now ok).invoked = true) ∧
    (cb.state = .opened → tmo ≤ now - cb.lastFailure → ok = false →
      t ≤ cb.failures →
      (cbCall t tmo cb now ok).cb.state = .opened ∧
      (cbCall t tmo cb now ok).invoked = true) ∧
    (CBInv t cb → CBInv t (cbCall t tmo cb now ok).cb) := by
  refine ⟨?_, ?_, ?_, ?_, ?_, ?_⟩
  · intro h
    cases ok <;> simp [cbCall, h]
  · intro h hok ht
    simp [cbCall, h, hok, ht]
  · intro h hto
    simp [cbCall, h, hto]
  · intro h hto hok
    have hlt : ¬ now - cb.lastFailure < tmo := Nat.not_lt.2 hto
    simp [cbCall, h, hok, hlt]
  · intro h hto hok ht
    have hlt : ¬ now - cb.lastFailure < tmo := Nat.not_lt.2 hto
    have ht1 : t ≤ cb.failures + 1 := Nat.le_succ_of_le ht
    simp [cbCall, h, hok, hlt, ht1]
  · intro hinv
    rw [CBInv] at hinv ⊢
    intro hne
    rcases hst : cb.state with hc | hc | hc
    · -- Closed at rest
      cases ok with
      | true => simp [cbCall, hst] at hne
      | false =>
        by_cases ht : t ≤ cb.failures + 1
        · simp [cbCall, hst, ht]
        · simp [cbCall, hst, ht] at hne
    · -- Open at rest
      have hf : t ≤ cb.failures := hinv (by rw [hst]; intro hh; cases hh)
      by_cases hto : now - cb.lastFailure < tmo
      · simp [cbCall, hst, hto, hf]
      · cases ok with
        | true => simp [cbCall, hst, hto] at hne
        | false =>
          have ht1 : t ≤ cb.failures + 1 := Nat.le_succ_of_le hf
          simp [cbCall, hst, hto, ht1]
    · -- transient Half-Open
      have hf : t ≤ cb.failures := hinv (by rw [hst]; intro hh; cases hh)
      cases ok with
      | true => simp [cbCall, hst] at hne
      | false =>
        have ht1 : t ≤ cb.failures + 1 := Nat.le_succ_of_le hf
        simp [cbCall, hst, ht1]

/-- C4 witness: the spec's scenario with `threshold = 3`,
`timeout = 60000 ms`.  The third consecutive failure opens the circuit;
a call 90 ms after the last failure is rejected as a `ResourceError`
without invoking the operation and without touching the state; a call
after the timeout runs as the Half-Open trial and, succeeding, closes
the circuit and resets the failure count. -/
theorem c4_circuit_breaker_witness :
    ((cbCall 3 60000 ⟨2, 5, .closed⟩ 10 false).cb.state = .opened) ∧
    (cbCall 3 60000 ⟨3, 10, .opened⟩ 100 true =
      ⟨⟨3, 10, .opened⟩, false, .rejected⟩) ∧
    ((cbCall 3 60000 ⟨3, 10, .opened⟩ 70000 true).cb = ⟨0, 10, .closed⟩) :=
  ⟨(c4_circuit_breaker 3 60000 ⟨2, 5, .closed⟩ 10 false).2.1 rfl rfl (by decide),
   (c4_circuit_breaker 3 60000 ⟨3, 10, .opened⟩ 100 true).2.2.1 rfl (by decide),
   ((c4_circuit_breaker 3 60000 ⟨3, 10, .opened⟩ 70000 true).2.2.2.1 rfl
     (by decide) rfl).1⟩

/-! ## C9 — Closed-state successes never reset the failure count -/

/-- Running a call sequence from a Closed breaker whose failures stay
below the threshold: the breaker stays Closed and its failure count is
the starting count plus the number of failing calls — successes change
nothing. -/
theorem cbRun_closed_below (t tmo : Nat) (evs : List (Nat × Bool)) :
    ∀ cb : CBData, cb.state = .closed →
      cb.failures + (evs.countP fun e => e.2 == false) < t →
      (cbRun t tmo cb evs).state = .closed ∧
      (cbRun t tmo cb evs).failures =
        cb.failures + (evs.countP fun e => e.2 == false) := by
  induction evs with
  | nil => intro cb h _; simp [cbRun, h]
  | cons ev rest ih =>
    intro cb h hlt
    rcases ev with ⟨now, ok⟩
    cases ok with
    | true =>
      have hstep : (cbCall t tmo cb now true).cb = cb := by
        simp [cbCall, h]
      have hrw : cbRun t tmo cb ((now, true) :: rest) = cbRun t tmo cb rest := by
        rw [cbRun, List.foldl_cons, hstep]; rfl
      have hcnt : (((now, true) :: rest).countP fun e => e.2 == false)
          = rest.countP (fun e => e.2 == false) := by
        rw [List.countP_cons]; simp
      rw [hrw, hcnt]
      rw [hcnt] at hlt
      exact ih cb h hlt
    | false =>
      have hcnt : (((now, false) :: rest).countP fun e => e.2 == false)
          = rest.countP (fun e => e.2 == false) + 1 := by
        rw [List.countP_cons]; simp
      rw [hcnt] at hlt
      have hnt : ¬ t ≤ cb.failures + 1 := by omega
      have hstep : (cbCall t tmo cb now false).cb
          = ⟨cb.failures + 1, now, .closed⟩ := by
        simp [cbCall, h, hnt]
      have hrw : cbRun t tmo cb ((now, false) :: rest)
          = cbRun t tmo ⟨cb.failures + 1, now, .closed⟩ rest := by
        rw [cbRun, List.foldl_cons, hstep]; rfl
      rw [hrw, hcnt]
      have hres := ih ⟨cb.failures + 1, now, .closed⟩ rfl
        (show cb.failures + 1 + (rest.countP fun e => e.2 == false) < t by omega)
      have h2 : (cbRun t tmo ⟨cb.failures + 1, now, .closed⟩ rest).failures
          = cb.failures + 1 + (rest.countP fun e => e.2 == false) := hres.2
      exact ⟨hres.1, by rw [h2]; omega⟩

/-- C9: a success in the Closed state does not touch the breaker state
at all (in particular the failure count is not reset; only the Half-Open
success path resets it), and consequently, for every call sequence whose
failure count brings the total from the last reset up to the threshold,
the circuit is Open immediately after the threshold-th failure — no
matter how many successful calls were interleaved. -/
theorem c9_closed_success_no_reset (t tmo : Nat) (cb : CBData) (now : Nat)
    (evs : List (Nat × Bool)) (now2 : Nat) :
    (cb.state = .closed → (cbCall t tmo cb now true).cb = cb) ∧
    (cb.state = .closed →
      cb.failures + (evs.countP fun e => e.2 == false) + 1 = t →
      (cbRun t tmo cb evs).failures =
        cb.failures + (evs.countP fun e => e.2 == false) ∧
      (cbCall t tmo (cbRun t tmo cb evs) now2 false).cb.state = .opened) := by
  constructor
  · intro h
    simp [cbCall, h]
  · intro h ht
    have hrun := cbRun_closed_below t tmo evs cb h (by omega)
    refine ⟨hrun.2, ?_⟩
    have hth : t ≤ (cbRun t tmo cb evs).failures + 1 := by omega
    simp [cbCall, hrun.1, hth]

/-- C9 witness: with `threshold = 2`, a failure at time 1 flanked by
successes at times 0 and 2 leaves the breaker Closed with one recorded
failure (the successes reset nothing), and the next failure opens the
circuit. -/
theorem c9_closed_success_no_reset_witness :
    ((cbCall 2 60000 ⟨1, 0, .closed⟩ 5 true).cb = ⟨1, 0, .closed⟩) ∧
    ((cbRun 2 60000 ⟨0, 0, .closed⟩ [(0, true), (1, false), (2, true)]).failures = 1) ∧
    ((cbCall 2 60000
        (cbRun 2 60000 ⟨0, 0, .closed⟩ [(0, true), (1, false), (2, true)])
        3 false).cb.state = .opened) :=
  ⟨(c9_closed_success_no_reset 2 60000 ⟨1, 0, .closed⟩ 5 [] 0).1 rfl,
   ((c9_closed_success_no_reset 2 60000 ⟨0, 0, .closed⟩ 0
      [(0, true), (1, false), (2, true)] 3).2 rfl (by decide)).1,
   ((c9_closed_success_no_reset 2 60000 ⟨0, 0, .closed⟩ 0
      [(0, true), (1, false), (2, true)] 3).2 rfl (by decide)).2⟩

/-! ## C2 — provenance paths are depth-bounded and duplicate-free -/

/-- A fold over the incoming edges can only grow the visited set when
each individual step does. -/
theorem foldl_visited_sub (f : TravState → Edge → TravState)
    (hf : ∀ st e, st.visited ⊆ (f st e).visited) :
    ∀ (l : List Edge) (st : TravState), st.visited ⊆ (l.foldl f st).visited := by
  intro l
  induction l with
  | nil => intro st; exact fun a ha => ha
  | cons e es ih => intro st; exact fun a ha => ih (f st e) (hf st e ha)

/-- The traversal only ever adds to the visited set. -/
theorem trav_visited_sub (g : Graph) (md : Nat) :
    ∀ fuel c path depth st,
      st.visited ⊆ (traverse g md fuel c path depth st).visited := by
  intro fuel
  induction fuel with
  | zero => intro c path depth st; exact fun a ha => ha
  | succ n ih =>
    intro c path depth st
    rw [traverse]
    by_cases hg : (st.visited.contains c || decide (md < depth)) = true
    · simp only [hg, if_true]
      exact fun a ha => ha
    · rw [Bool.not_eq_true] at hg
      simp only [hg, Bool.false_eq_true, if_false]
      cases hf : findNode g c with
      | none =>
        simp only [hf]
        exact fun a ha => List.mem_append_left _ ha
      | some node =>
        simp only [hf]
        by_cases hi : (incomingEdges g c).isEmpty = true
        · simp only [hi, if_true]
          exact fun a ha => List.mem_append_left _ ha
        · rw [Bool.not_eq_true] at hi
          simp only [hi, Bool.false_eq_true, if_false]
          intro a ha
          exact foldl_visited_sub _ (fun st' e => ih e.sourceId _ (depth + 1) st')
            (incomingEdges g c) _ (List.mem_append_left _ ha)

/-- The generic accumulation principle for the provenance list of a fold
over edges: any path found by the fold was already present or satisfies
`P`, provided each step has that property and preserves the
precondition. -/
theorem foldl_prov_acc (f : TravState → Edge → TravState)
    (P : List Step → Prop) (pre : TravState → Prop)
    (hpre : ∀ st e, pre st → pre (f st e))
    (hstep : ∀ st e q, pre st → q ∈ (f st e).provenance →
      q ∈ st.provenance ∨ P q) :
    ∀ (l : List Edge) (st : TravState), pre st →
      ∀ q ∈ (l.foldl f st).provenance, q ∈ st.provenance ∨ P q := by
  intro l
  induction l with
  | nil => intro st _ q hq; exact Or.inl hq
  | cons e es ih =>
    intro st hst q hq
    rcases ih (f st e) (hpre st e hst) q hq with h | h
    · exact hstep st e q hst h
    · exact Or.inr h

/-- Every path the traversal adds to the accumulator extends the current
path prefix by at most `fuel` further steps. -/
theorem trav_path_len (g : Graph) (md : Nat) :
    ∀ fuel c path depth st,
      ∀ q ∈ (traverse g md fuel c path depth st).provenance,
        q ∈ st.provenance ∨ q.length ≤ path.length + fuel := by
  intro fuel
  induction fuel with
  | zero => intro c path depth st q hq; exact Or.inl hq
  | succ n ih =>
    intro c path depth st
    rw [traverse]
    by_cases hg : (st.visited.contains c || decide (md < depth)) = true
    · simp only [hg, if_true]
      exact fun q hq => Or.inl hq
    · rw [Bool.not_eq_true] at hg
      simp only [hg, Bool.false_eq_true, if_false]
      cases hf : findNode g c with
      | none =>
        simp only [hf]
        exact fun q hq => Or.inl hq
      | some node =>
        simp only [hf]
        by_cases hi : (incomingEdges g c).isEmpty = true
        · simp only [hi, if_true]
          intro q hq
          rcases List.mem_append.1 hq with h | h
          · exact Or.inl h
          · rw [List.mem_singleton] at h
            subst h
            right
            rw [List.length_append, List.length_singleton]
            omega
        · rw [Bool.not_eq_true] at hi
          simp only [hi, Bool.false_eq_true, if_false]
          intro q hq
          have := foldl_prov_acc _
            (fun q => q.length ≤ path.length + (n + 1)) (fun _ => True)
            (fun _ _ _ => trivial)
            (fun st' e q _ hq' => by
              rcases ih e.sourceId (path ++ [⟨node, some e, depth⟩]) (depth + 1)
                st' q hq' with h | h
              · exact Or.inl h
              · right
                rw [List.length_append, List.length_singleton] at h
                omega)
            (incomingEdges g c) _ trivial q hq
          exact this

/-- Every path the traversal adds extends the current prefix, keeps its
node ids duplicate-free, and stays inside the visited set — provided the
prefix itself does. -/
theorem trav_path_nodup (g : Graph) (md : Nat) :
    ∀ fuel c path depth st,
      (pathIds path).Nodup →
      (∀ i ∈ pathIds path, i ∈ st.visited) →
      ∀ q ∈ (traverse g md fuel c path depth st).provenance,
        q ∈ st.provenance ∨ (pathIds q).Nodup := by
  intro fuel
  induction fuel with
  | zero => intro c path depth st _ _ q hq; exact Or.inl hq
  | succ n ih =>
    intro c path depth st hnd hsub
    rw [traverse]
    by_cases hg : (st.visited.contains c || decide (md < depth)) = true
    · simp only [hg, if_true]
      exact fun q hq => Or.inl hq
    · rw [Bool.not_eq_true] at hg
      have hcnot : c ∉ st.visited := by
        intro hc
        rw [Bool.or_eq_false_iff] at hg
        rw [Bool.eq_false_iff] at hg
        exact hg.1 (List.elem_iff.2 hc)
      have hcpath : c ∉ pathIds path := fun hc => hcnot (hsub c hc)
      simp only [hg, Bool.false_eq_true, if_false]
      cases hf : findNode g c with
      | none =>
        simp only [hf]
        exact fun q hq => Or.inl hq
      | some node =>
        have hid : node.id = c := by
          have := List.find?_some hf
          exact eq_of_beq this
        simp only [hf]
        have hnd' : ∀ e? : Option Edge,
            (pathIds (path ++ [⟨node, e?, depth⟩])).Nodup := by
          intro e?
          rw [pathIds, List.map_append]
          rw [List.nodup_append]
          refine ⟨hnd, List.nodup_singleton _, ?_⟩
          intro a ha
          simp only [List.map_cons, List.map_nil, List.mem_singleton]
          intro hac
          rw [hac, hid] at ha
          exact hcpath ha
        by_cases hi : (incomingEdges g c).isEmpty = true
        · simp only [hi, if_true]
          intro q hq
          rcases List.mem_append.1 hq with h | h
          · exact Or.inl h
          · rw [List.mem_singleton] at h
            subst h
            exact Or.inr (hnd' none)
        · rw [Bool.not_eq_true] at hi
          simp only [hi, Bool.false_eq_true, if_false]
          intro q hq
          exact foldl_prov_acc _
            (fun q => (pathIds q).Nodup)
            (fun st' => ∀ e : Edge,
              ∀ i ∈ pathIds (path ++ [⟨node, some e, depth⟩]), i ∈ st'.visited)
            (fun st' e hp e' i hi' =>
              trav_visited_sub g md n e.sourceId _ (depth + 1) st' (hp e' i hi'))
            (fun st' e q hp hq' =>
              ih e.sourceId (path ++ [⟨node, some e, depth⟩]) (depth + 1) st'
                (hnd' (some e)) (hp e) q hq')
            (incomingEdges g c) ⟨st.visited ++ [c], st.provenance⟩
            (by
              intro e i hi'
              rw [pathIds, List.map_append] at hi'
              rcases List.mem_append.1 hi' with h | h
              · exact List.mem_append_left _ (hsub i h)
              · simp only [List.map_cons, List.map_nil, List.mem_singleton] at h
                rw [h, hid]
                exact List.mem_append_right _ (List.mem_singleton_self c))
            q hq

/-- C2: every path returned by `getProvenance(nodeId, maxDepth)` holds
at most `maxDepth + 1` nodes, and no node id occurs twice within one
path (the shared `visited` set guarantees the ids along a path are
pairwise distinct, and the `depth > maxDepth` guard cuts every path at
`maxDepth + 1` entries). -/
theorem c2_getProvenance_bounded (g : Graph) (nodeId : String)
    (maxDepth : Nat) :
    ∀ p ∈ getProvenance g nodeId maxDepth,
      p.length ≤ maxDepth + 1 ∧ (pathIds p).Nodup := by
  intro p hp
  rw [getProvenance] at hp
  constructor
  · rcases trav_path_len g maxDepth (maxDepth + 1) nodeId [] 0 ⟨[], []⟩ p hp with
      h | h
    · cases h
    · simpa using h
  · rcases trav_path_nodup g maxDepth (maxDepth + 1) nodeId [] 0 ⟨[], []⟩
      (by simp [pathIds]) (by simp [pathIds]) p hp with h | h
    · cases h
    · exact h

/-- C2 witness: the spec's A→B→C scenario.  `getProvenance(C, 10)` on
`gChain` yields the single path `pChain` of three steps, which indeed
has at most eleven nodes and no repeated id. -/
theorem c2_getProvenance_bounded_witness :
    (pChain ∈ getProvenance gChain "c" 10) ∧
    pChain.length ≤ 11 ∧ (pathIds pChain).Nodup :=
  ⟨by decide, c2_getProvenance_bounded gChain "c" 10 pChain (by decide)⟩

/-! ## C10 — the query engine reads only the cid, never the history -/

/-- Membership in an insertion step of the query sort. -/
theorem mem_insertSorted (le : Node → Node → Bool) (x a : Node) :
    ∀ l : List Node, a ∈ insertSorted le x l ↔ a = x ∨ a ∈ l := by
  intro l
  induction l with
  | nil => simp [insertSorted]
  | cons y ys ih =>
    rw [insertSorted]
    by_cases h : le x y = true
    · simp [h, List.mem_cons]
    · rw [Bool.not_eq_true] at h
      simp [h, List.mem_cons, ih]
      tauto

/-- The query sort is a permutation at the level of membership. -/
theorem mem_sortNodes (le : Node → Node → Bool) (a : Node) :
    ∀ l : List Node, a ∈ sortNodes le l ↔ a ∈ l := by
  intro l
  induction l with
  | nil => simp [sortNodes]
  | cons y ys ih =>
    rw [sortNodes, List.foldr_cons]
    rw [show ys.foldr (insertSorted le) [] = sortNodes le ys from rfl]
    rw [mem_insertSorted, ih, List.mem_cons]

/-- Nodes resolved from an index id-set are nodes of the graph. -/
theorem nodesOfIds_sub (g : Graph) (ids : List String) :
    ∀ n ∈ nodesOfIds g ids, n ∈ g.nodes := by
  intro n hn
  rcases List.mem_filterMap.1 hn with ⟨i, _, hf⟩
  exact List.mem_of_find?_eq_some hf

/-- A fold that only ever appends graph nodes produces graph nodes. -/
theorem foldl_nodes_sub {β : Type} (g : Graph) (f : List Node → β → List Node)
    (hf : ∀ acc b, (∀ m ∈ acc, m ∈ g.nodes) → ∀ n ∈ f acc b, n ∈ g.nodes) :
    ∀ (l : List β) (acc : List Node), (∀ m ∈ acc, m ∈ g.nodes) →
      ∀ n ∈ l.foldl f acc, n ∈ g.nodes := by
  intro l
  induction l with
  | nil => intro acc hacc n hn; exact hacc n hn
  | cons b rest ih =>
    intro acc hacc n hn
    rw [List.foldl_cons] at hn
    exact ih (f acc b) (hf acc b hacc) n hn

/-- Every node the primary selector returns is a node of the graph. -/
theorem queryPrimary_sub (g : Graph) (f : QueryFilter) :
    ∀ n ∈ queryPrimary g f, n ∈ g.nodes := by
  intro n hn
  rw [queryPrimary] at hn
  split at hn
  · -- cid branch
    split at hn
    · rw [List.mem_singleton] at hn
      subst hn
      rename_i m hc
      rw [getNodeByCid] at hc
      split at hc
      · split at hc
        · exact List.mem_of_find?_eq_some hc
        · cases hc
      · cases hc
    · cases hn
  · split at hn
    · -- nodeType branch
      exact nodesOfIds_sub g _ n hn
    · split at hn
      · -- tags branch
        rw [tagsUnion] at hn
        refine foldl_nodes_sub g _ ?_ _ [] (by intro m hm; cases hm) n hn
        intro acc t hacc m hm
        rcases List.mem_append.1 hm with h | h
        · exact hacc m h
        · exact nodesOfIds_sub g _ m (List.mem_filter.mp h).1
      · split at hn
        · -- dateRange branch
          rename_i r heq
          rw [getNodesByDateRange] at hn
          refine foldl_nodes_sub g _ ?_ _ [] (by intro m hm; cases hm) n hn
          intro acc kv hacc m hm
          split at hm
          · rcases List.mem_append.1 hm with h | h
            · exact hacc m h
            · exact nodesOfIds_sub g _ m h
          · exact hacc m hm
        · exact hn

/-- Every row of a query result carries a node of the primary
selection, its `verified` field is the node's cid truthiness, and under
a `verified` filter the cid truthiness equals the requested value. -/
theorem query_row_src (g : Graph) (f : QueryFilter) :
    ∀ r ∈ query g f, r.node ∈ queryPrimary g f ∧
      r.verified = jsTruthy r.node.cid ∧
      (∀ b, f.verified = some b → jsTruthy r.node.cid = b) := by
  intro r hr
  cases hv : f.verified with
  | none =>
    simp only [query, hv] at hr
    rcases List.mem_map.1 hr with ⟨n, hn, hrn⟩
    subst hrn
    have hs := List.mem_of_mem_drop (List.mem_of_mem_take hn)
    rw [mem_sortNodes] at hs
    exact ⟨hs, rfl, by intro b hb; cases hb⟩
  | some b =>
    simp only [query, hv] at hr
    rcases List.mem_map.1 hr with ⟨n, hn, hrn⟩
    subst hrn
    have hs := List.mem_of_mem_drop (List.mem_of_mem_take hn)
    rw [mem_sortNodes] at hs
    have hm := List.mem_filter.mp hs
    refine ⟨hm.1, rfl, ?_⟩
    intro b' hb'
    cases hb'
    exact eq_of_beq hm.2

/-- Truthiness agrees with `Option.isSome` away from the empty-string
cid. -/
theorem jsTruthy_eq_isSome (o : Option String) (h : o ≠ some "") :
    jsTruthy o = o.isSome := by
  cases o with
  | none => rfl
  | some s =>
    have hs : s ≠ "" := fun hh => h (by rw [hh])
    simp [jsTruthy, hs]

/-- Node lookup after a history rewrite finds the rewritten node. -/
theorem findNode_remap (g : Graph) (hist : String → List VerifEntry)
    (i : String) :
    findNode (remapHist g hist) i = (findNode g i).map (histSet hist) := by
  show (g.nodes.map (histSet hist)).find? (fun n => n.id == i)
      = (g.nodes.find? (fun n => n.id == i)).map (histSet hist)
  rw [List.find?_map]
  rfl

/-- Id-set resolution commutes with the history rewrite. -/
theorem nodesOfIds_remap (g : Graph) (hist : String → List VerifEntry)
    (ids : List String) :
    nodesOfIds (remapHist g hist) ids = (nodesOfIds g ids).map (histSet hist) := by
  rw [nodesOfIds, nodesOfIds, List.map_filterMap]
  congr 1
  funext i
  rw [findNode_remap]

/-- The cid lookup commutes with the history rewrite. -/
theorem getNodeByCid_remap (g : Graph) (hist : String → List VerifEntry)
    (c : String) :
    getNodeByCid (remapHist g hist) c
      = (getNodeByCid g c).map (histSet hist) := by
  show (match lookupA g.byCid c with
        | some nid => if nid ≠ "" then findNode (remapHist g hist) nid else none
        | none => none)
      = _
  rw [getNodeByCid]
  cases lookupA g.byCid c with
  | none => rfl
  | some nid =>
    show (if nid ≠ "" then findNode (remapHist g hist) nid else none)
        = Option.map (histSet hist) (if nid ≠ "" then findNode g nid else none)
    by_cases hne : nid ≠ ""
    · rw [if_pos hne, if_pos hne]
      exact findNode_remap g hist nid
    · rw [if_neg hne, if_neg hne]
      rfl

/-- The sort key ignores the history. -/
theorem sortVal_histSet (k : SortKey) (hist : String → List VerifEntry)
    (n : Node) : sortVal k (histSet hist n) = sortVal k n := by
  cases k <;> rfl

/-- The sort comparator ignores the history. -/
theorem sortLe_histSet (f : QueryFilter) (hist : String → List VerifEntry)
    (a b : Node) : sortLe f (histSet hist a) (histSet hist b) = sortLe f a b := by
  rw [sortLe, sortLe]
  cases f.sortOrder <;> simp [sortVal_histSet]

/-- Insertion into the sorted list commutes with the history rewrite. -/
theorem insertSorted_remap (f : QueryFilter) (hist : String → List VerifEntry)
    (x : Node) :
    ∀ l : List Node,
      insertSorted (sortLe f) (histSet hist x) (l.map (histSet hist))
        = (insertSorted (sortLe f) x l).map (histSet hist) := by
  intro l
  induction l with
  | nil => rfl
  | cons y ys ih =>
    rw [List.map_cons, insertSorted, insertSorted, sortLe_histSet]
    by_cases h : sortLe f x y = true
    · simp only [h, if_true, List.map_cons]
    · rw [Bool.not_eq_true] at h
      simp only [h, Bool.false_eq_true, if_false, List.map_cons, ih]

/-- The whole sort commutes with the history rewrite. -/
theorem sortNodes_remap (f : QueryFilter) (hist : String → List VerifEntry) :
    ∀ l : List Node,
      sortNodes (sortLe f) (l.map (histSet hist))
        = (sortNodes (sortLe f) l).map (histSet hist) := by
  intro l
  induction l with
  | nil => rfl
  | cons y ys ih =>
    rw [List.map_cons, sortNodes, sortNodes, List.foldr_cons, List.foldr_cons]
    rw [show ys.foldr (insertSorted (sortLe f)) [] = sortNodes (sortLe f) ys
      from rfl]
    rw [show (ys.map (histSet hist)).foldr (insertSorted (sortLe f)) []
        = sortNodes (sortLe f) (ys.map (histSet hist)) from rfl]
    rw [ih, insertSorted_remap]

/-- The date-range scan commutes with the history rewrite. -/
theorem dateRange_foldl_remap (g : Graph) (hist : String → List VerifEntry)
    (r : DateRange) :
    ∀ (l : List (String × List String)) (acc : List Node),
      (l.foldl
        (fun acc kv =>
          if r.start ≤ kv.1 ∧ kv.1 ≤ r.stop
          then acc ++ nodesOfIds (remapHist g hist) kv.2 else acc)
        (acc.map (histSet hist)))
      = (l.foldl
          (fun acc kv =>
            if r.start ≤ kv.1 ∧ kv.1 ≤ r.stop
            then acc ++ nodesOfIds g kv.2 else acc)
          acc).map (histSet hist) := by
  intro l
  induction l with
  | nil => intro acc; rfl
  | cons kv rest ih =>
    intro acc
    rw [List.foldl_cons, List.foldl_cons]
    by_cases h : r.start ≤ kv.1 ∧ kv.1 ≤ r.stop
    · rw [if_pos h, if_pos h, nodesOfIds_remap, ← List.map_append]
      exact ih _
    · rw [if_neg h, if_neg h]
      exact ih acc

/-- The tag-union selector commutes with the history rewrite. -/
theorem tagsUnion_foldl_remap (g : Graph) (hist : String → List VerifEntry) :
    ∀ (ts : List String) (acc : List Node),
      (ts.foldl
        (fun acc t =>
          acc ++ (getNodesByTag (remapHist g hist) t).filter
            (fun n => !acc.any (fun m => m.id == n.id)))
        (acc.map (histSet hist)))
      = (ts.foldl
          (fun acc t =>
            acc ++ (getNodesByTag g t).filter
              (fun n => !acc.any (fun m => m.id == n.id)))
          acc).map (histSet hist) := by
  intro ts
  induction ts with
  | nil => intro acc; rfl
  | cons t rest ih =>
    intro acc
    rw [List.foldl_cons, List.foldl_cons]
    have hpred : ((fun n : Node =>
          !(acc.map (histSet hist)).any fun m => m.id == n.id) ∘ histSet hist)
        = (fun n : Node => !acc.any fun m => m.id == n.id) := by
      funext n
      simp only [Function.comp_apply, List.any_map]
      rfl
    have hstep : (acc.map (histSet hist)) ++
          (getNodesByTag (remapHist g hist) t).filter
            (fun n => !(acc.map (histSet hist)).any (fun m => m.id == n.id))
        = (acc ++ (getNodesByTag g t).filter
            (fun n => !acc.any (fun m => m.id == n.id))).map (histSet hist) := by
      rw [show getNodesByTag (remapHist g hist) t
          = (getNodesByTag g t).map (histSet hist) from nodesOfIds_remap g hist _]
      rw [List.filter_map, hpred, List.map_append]
    rw [hstep]
    exact ih _

/-- The primary selector commutes with the history rewrite. -/
theorem queryPrimary_remap (g : Graph) (hist : String → List VerifEntry)
    (f : QueryFilter) :
    queryPrimary (remapHist g hist) f
      = (queryPrimary g f).map (histSet hist) := by
  rw [queryPrimary, queryPrimary]
  by_cases h1 : jsTruthy f.cid = true
  · simp only [h1, if_true]
    rw [getNodeByCid_remap]
    cases getNodeByCid g (f.cid.getD "") <;> rfl
  · rw [Bool.not_eq_true] at h1
    simp only [h1, Bool.false_eq_true, if_false]
    by_cases h2 : jsTruthy f.nodeType = true
    · simp only [h2, if_true]
      exact nodesOfIds_remap g hist _
    · rw [Bool.not_eq_true] at h2
      simp only [h2, Bool.false_eq_true, if_false]
      by_cases h3 : (f.tags.getD []).length > 0
      · simp only [h3, if_true]
        rw [tagsUnion, tagsUnion]
        exact tagsUnion_foldl_remap g hist _ []
      · simp only [h3, if_false]
        cases f.dateRange with
        | none => rfl
        | some r =>
          simp only [getNodesByDateRange]
          exact dateRange_foldl_remap g hist r _ []

/-- The full query commutes with the history rewrite: same rows, with
only each row's embedded node carrying the rewritten history. -/
theorem query_remap (g : Graph) (hist : String → List VerifEntry)
    (f : QueryFilter) :
    query (remapHist g hist) f
      = (query g f).map
          (fun r => ⟨histSet hist r.node, r.verified⟩) := by
  cases hv : f.verified with
  | none =>
    simp only [query, hv]
    rw [queryPrimary_remap, sortNodes_remap, ← List.map_drop, ← List.map_take]
    rw [List.map_map, List.map_map]
    rfl
  | some b =>
    simp only [query, hv]
    rw [queryPrimary_remap]
    rw [List.filter_map]
    rw [show ((fun n => jsTruthy n.cid == b) ∘ histSet hist)
        = (fun n => jsTruthy n.cid == b) from rfl]
    rw [sortNodes_remap, ← List.map_drop, ← List.map_take]
    rw [List.map_map, List.map_map]
    rfl

/-- C10: in every query result row, `verified` equals the presence of
the node's cid; the secondary `verified` filter selects rows by cid
presence alone; and the verification history has no effect on either —
querying a graph whose histories were all rewritten (e.g. to record
failed integrity checks) returns exactly the same ids with exactly the
same `verified` flags.  The hypothesis excludes the degenerate
empty-string cid, which the store never produces (its cids carry a
`bafk…`/`bafybei…` prefix). -/
theorem c10_query_verified (g : Graph) (f : QueryFilter)
    (hcid : ∀ n ∈ g.nodes, n.cid ≠ some "") :
    (∀ r ∈ query g f, r.verified = r.node.cid.isSome) ∧
    (∀ b, f.verified = some b → ∀ r ∈ query g f, r.node.cid.isSome = b) ∧
    (∀ hist : String → List VerifEntry,
      (query (remapHist g hist) f).map (fun r => (r.node.id, r.verified))
        = (query g f).map (fun r => (r.node.id, r.verified))) := by
  refine ⟨?_, ?_, ?_⟩
  · intro r hr
    have h := query_row_src g f r hr
    have hmem : r.node ∈ g.nodes := queryPrimary_sub g f r.node h.1
    rw [h.2.1, jsTruthy_eq_isSome _ (hcid r.node hmem)]
  · intro b hb r hr
    have h := query_row_src g f r hr
    have hmem : r.node ∈ g.nodes := queryPrimary_sub g f r.node h.1
    rw [← jsTruthy_eq_isSome _ (hcid r.node hmem)]
    exact h.2.2 b hb
  · intro hist
    rw [query_remap, List.map_map]
    rfl

/-- C10 witness: the one-node graph `gQ`, whose node is linked but whose
latest `integrity_check` history entry records a failed verification, is
still returned by the unfiltered query with `verified = true`, which
indeed equals the presence of its cid. -/
theorem c10_query_verified_witness :
    ((⟨nQ, true⟩ : QueryRow) ∈ query gQ {}) ∧
    (⟨nQ, true⟩ : QueryRow).verified = (⟨nQ, true⟩ : QueryRow).node.cid.isSome :=
  ⟨by decide,
   (c10_query_verified gQ {} (by decide)).1 ⟨nQ, true⟩ (by decide)⟩

/-! ## C8 — export/import round trip -/

/-- C8 counterexample: the claim says the round trip reproduces the
by-CID index exactly.  In `gRelink` the node was added while unlinked
and linked afterwards (`node.linkToStorage` is a public mutation that
touches no graph index), so the original by-CID index is empty; the
round trip replays `addNode` on the now-linked node and produces an
index entry `"c9" → "a"` the original graph does not have. -/
theorem c8_roundTrip_index_differs :
    lookupA gRelink.byCid "c9" = none ∧
    (roundTrip gRelink).2 = none ∧
    lookupA (roundTrip gRelink).1.byCid "c9" = some "a" := by
  refine ⟨rfl, rfl, rfl⟩

/-- Folding `addNode` over a node list acts componentwise: the node map
folds `setNode`, the by-CID index folds `cidStep`, the by-tag index
folds `tagStep`, and the edges are untouched. -/
theorem foldAdd_proj : ∀ (ns : List Node) (g0 : Graph),
    ((ns.foldl (fun g n => (addNode g n).1) g0).nodes
      = ns.foldl setNode g0.nodes) ∧
    ((ns.foldl (fun g n => (addNode g n).1) g0).byCid
      = ns.foldl cidStep g0.byCid) ∧
    ((ns.foldl (fun g n => (addNode g n).1) g0).byTags
      = ns.foldl tagStep g0.byTags) ∧
    ((ns.foldl (fun g n => (addNode g n).1) g0).edges = g0.edges) := by
  intro ns
  induction ns with
  | nil => intro g0; exact ⟨rfl, rfl, rfl, rfl⟩
  | cons n rest ih =>
    intro g0
    exact ih ((addNode g0 n).1)

/-- Replaying `setNode` over fresh, duplicate-free nodes appends them in
order. -/
theorem foldl_setNode_append : ∀ (ns : List Node) (acc : List Node),
    (∀ n ∈ ns, ∀ m ∈ acc, m.id ≠ n.id) → (ns.map (·.id)).Nodup →
    ns.foldl setNode acc = acc ++ ns := by
  intro ns
  induction ns with
  | nil => intro acc _ _; simp
  | cons n rest ih =>
    intro acc hfresh hnd
    rw [List.foldl_cons]
    have hany : acc.any (fun m => m.id == n.id) = false := by
      rw [List.any_eq_false]
      intro m hm
      simp only [beq_iff_eq]
      exact hfresh n (List.mem_cons_self n rest) m hm
    have hset : setNode acc n = acc ++ [n] := by
      rw [setNode, hany]
      simp
    rw [hset]
    rw [List.map_cons, List.nodup_cons] at hnd
    have hfresh' : ∀ k ∈ rest, ∀ m ∈ acc ++ [n], m.id ≠ k.id := by
      intro k hk m hm
      rcases List.mem_append.1 hm with h | h
      · exact hfresh k (List.mem_cons_of_mem n hk) m h
      · rw [List.mem_singleton] at h
        subst h
        intro hh
        exact hnd.1 (by rw [hh]; exact List.mem_map_of_mem _ hk)
    rw [ih (acc ++ [n]) hfresh' hnd.2]
    simp

/-- Replaying `setEdge` over fresh, duplicate-free edges appends them in
order. -/
theorem foldl_setEdge_append : ∀ (es : List Edge) (acc : List Edge),
    (∀ e ∈ es, ∀ d ∈ acc, d.id ≠ e.id) → (es.map (·.id)).Nodup →
    es.foldl setEdge acc = acc ++ es := by
  intro es
  induction es with
  | nil => intro acc _ _; simp
  | cons e rest ih =>
    intro acc hfresh hnd
    rw [List.foldl_cons]
    have hany : acc.any (fun d => d.id == e.id) = false := by
      rw [List.any_eq_false]
      intro d hd
      simp only [beq_iff_eq]
      exact hfresh e (List.mem_cons_self e rest) d hd
    have hset : setEdge acc e = acc ++ [e] := by
      rw [setEdge, hany]
      simp
    rw [hset]
    rw [List.map_cons, List.nodup_cons] at hnd
    have hfresh' : ∀ k ∈ rest, ∀ d ∈ acc ++ [e], d.id ≠ k.id := by
      intro k hk d hd
      rcases List.mem_append.1 hd with h | h
      · exact hfresh k (List.mem_cons_of_mem e hk) d h
      · rw [List.mem_singleton] at h
        subst h
        intro hh
        exact hnd.1 (by rw [hh]; exact List.mem_map_of_mem _ hk)
    rw [ih (acc ++ [e]) hfresh' hnd.2]
    simp

/-- Replaying the edge list of a graph whose endpoints all resolve never
throws, leaves nodes and both claim-relevant indices untouched, and
folds `setEdge` over the edge map. -/
theorem importEdges_ok : ∀ (es : List Edge) (g : Graph),
    (∀ e ∈ es, (hasNodeId g e.sourceId && hasNodeId g e.targetId) = true) →
    (importEdges g es).2 = none ∧
    (importEdges g es).1.nodes = g.nodes ∧
    (importEdges g es).1.byCid = g.byCid ∧
    (importEdges g es).1.byTags = g.byTags ∧
    (importEdges g es).1.edges = es.foldl setEdge g.edges := by
  intro es
  induction es with
  | nil => intro g _; exact ⟨rfl, rfl, rfl, rfl, rfl⟩
  | cons e rest ih =>
    intro g hres
    have hc := hres e (List.mem_cons_self e rest)
    have haddE : addEdge g e
        = (updateMetrics { g with edges := setEdge g.edges e }, .ok e.id) := by
      rw [addEdge, hc]
      simp
    rw [importEdges, haddE]
    have ih' := ih (updateMetrics { g with edges := setEdge g.edges e })
      (fun e' he' => hres e' (List.mem_cons_of_mem e he'))
    exact ih'

/-- Two graphs with the same node map agree on node-id membership. -/
theorem hasNodeId_congr (g1 g2 : Graph) (h : g1.nodes = g2.nodes)
    (i : String) : hasNodeId g1 i = hasNodeId g2 i := by
  rw [hasNodeId, hasNodeId, h]

/-- C8 amended: `importGraph(exportGraph())` preserves the node and edge
counts, but it rebuilds the by-CID and by-tag indices from each node's
current `cid`/`tags`; the rebuilt indices coincide with the original
graph's exactly when the original indices agree with that canonical
recomputation (which holds when every node was linked and tagged before
insertion, and fails otherwise — see the counterexample).  The remaining
hypotheses are the graph invariants the API maintains: unique node and
edge ids and no dangling edge endpoints. -/
theorem c8_roundTrip_preserves (g : Graph)
    (hn : (g.nodes.map (·.id)).Nodup)
    (he : (g.edges.map (·.id)).Nodup)
    (hres : ∀ e ∈ g.edges,
      (hasNodeId g e.sourceId && hasNodeId g e.targetId) = true)
    (hcid : ∀ c, lookupA g.byCid c = lookupA (buildCidIndex g.nodes) c)
    (htag : ∀ t i, tagHas g.byTags t i = tagHas (buildTagIndex g.nodes) t i) :
    (roundTrip g).2 = none ∧
    (roundTrip g).1.nodes.length = g.nodes.length ∧
    (roundTrip g).1.edges.length = g.edges.length ∧
    (∀ c, lookupA (roundTrip g).1.byCid c = lookupA g.byCid c) ∧
    (∀ t i, tagHas (roundTrip g).1.byTags t i = tagHas g.byTags t i) := by
  have hB := foldAdd_proj g.nodes emptyGraph
  have hnodes : (g.nodes.foldl (fun g n => (addNode g n).1) emptyGraph).nodes
      = g.nodes := by
    rw [hB.1]
    have h := foldl_setNode_append g.nodes [] (by intro n _ m hm; cases hm) hn
    simpa using h
  have hres' : ∀ e ∈ g.edges,
      (hasNodeId (g.nodes.foldl (fun g n => (addNode g n).1) emptyGraph)
          e.sourceId &&
        hasNodeId (g.nodes.foldl (fun g n => (addNode g n).1) emptyGraph)
          e.targetId) = true := by
    intro e hee
    rw [hasNodeId_congr _ g hnodes, hasNodeId_congr _ g hnodes]
    exact hres e hee
  have hD := importEdges_ok g.edges
    (g.nodes.foldl (fun g n => (addNode g n).1) emptyGraph) hres'
  have hrt : roundTrip g
      = importEdges (g.nodes.foldl (fun g n => (addNode g n).1) emptyGraph)
          g.edges := rfl
  refine ⟨?_, ?_, ?_, ?_, ?_⟩
  · rw [hrt]; exact hD.1
  · rw [hrt, hD.2.1, hnodes]
  · rw [hrt, hD.2.2.2.2, hB.2.2.2]
    have h := foldl_setEdge_append g.edges [] (by intro e _ d hd; cases hd) he
    rw [show (emptyGraph : Graph).edges = ([] : List Edge) from rfl, h]
    simp
  · intro c
    rw [hrt, hD.2.2.1, hB.2.1]
    rw [show g.nodes.foldl cidStep (emptyGraph : Graph).byCid
        = buildCidIndex g.nodes from rfl]
    exact (hcid c).symm
  · intro t i
    rw [hrt, hD.2.2.2.1, hB.2.2.1]
    rw [show g.nodes.foldl tagStep (emptyGraph : Graph).byTags
        = buildTagIndex g.nodes from rfl]
    exact (htag t i).symm

/-- C8 witness: the A→B→C chain graph (three nodes, two edges, every
node's cid and tags fixed at insertion time) round-trips with the same
counts and indices. -/
theorem c8_roundTrip_preserves_witness :
    (roundTrip gChain).2 = none ∧
    (roundTrip gChain).1.nodes.length = gChain.nodes.length ∧
    (roundTrip gChain).1.edges.length = gChain.edges.length :=
  let h := c8_roundTrip_preserves gChain (by decide) (by decide) (by decide)
    (fun _ => rfl) (fun _ _ => rfl)
  ⟨h.1, h.2.1, h.2.2.1⟩

end ProvChain
